import Mathlib

set_option autoImplicit false

/-!
Verification of the question/choice resolution engine of the `yg` YAML
template generator: schema normalization (`Questions.normalize`), dynamic
choice resolution (`Question.GetChoices` / `resolveDynamicChoices`),
template-type determination (`determineTemplateAndMultiValues`) and the
combination expander (`generateCombinations` with its hierarchical
recursion).  Go maps are modelled as association lists whose iteration
order is the list order; Go `interface{}` answer values are modelled by
the `GoVal` sum; YAML scalar values are modelled by their `%v` rendering.
-/

namespace YG

/-- A parsed YAML value as it appears in the `choices` field.  Scalars are
represented by their Go `%v` rendering, so `Yaml.str` covers strings,
numbers and booleans alike; mappings keep the document order. -/
inductive Yaml where
  | str (s : String)
  | list (xs : List Yaml)
  | map (kvs : List (String × Yaml))

mutual

/-- Go's `fmt.Sprintf("%v", x)`.  On strings it is the identity; slices
render as a bracketed space-separated list, maps as `map[k:v ...]` in
iteration order. -/
def goFormat : Yaml → String
  | .str s => s
  | .list xs => "[" ++ goFormatItems xs ++ "]"
  | .map kvs => "map[" ++ goFormatEntries kvs ++ "]"

def goFormatItems : List Yaml → String
  | [] => ""
  | [x] => goFormat x
  | x :: y :: xs => goFormat x ++ " " ++ goFormatItems (y :: xs)

def goFormatEntries : List (String × Yaml) → String
  | [] => ""
  | [kv] => kv.1 ++ ":" ++ goFormat kv.2
  | kv :: kv2 :: xs => kv.1 ++ ":" ++ goFormat kv.2 ++ " " ++ goFormatEntries (kv2 :: xs)

end

/-- An answer value stored in the generator's `map[string]interface{}`:
the four cases of the type switch in `resolveDynamicChoices`
(`[]string`, `string`, `[]interface{}`, and any other value). -/
inductive GoVal where
  | str (s : String)
  | strList (l : List String)
  | anyList (l : List Yaml)
  | other (y : Yaml)

/-- First-match association-list lookup: Go map indexing. -/
def lookupV {α : Type} : List (String × α) → String → Option α
  | [], _ => none
  | kv :: rest, k => if kv.1 = k then some kv.2 else lookupV rest k

/-- Whether a key is present: Go `_, ok := m[k]`. -/
def hasKey {α : Type} : List (String × α) → String → Bool
  | [], _ => false
  | kv :: rest, k => if kv.1 = k then true else hasKey rest k

/-- Boolean list membership used for the `allChoices` duplicate set. -/
def memStr : List String → String → Bool
  | [], _ => false
  | x :: xs, s => if x = s then true else memStr xs s

/-- The `answerValues` normalization at the top of each dependency step of
`resolveDynamicChoices`. -/
def answerValues : GoVal → List String
  | .str s => [s]
  | .strList l => l
  | .anyList l => l.map goFormat
  | .other y => [goFormat y]

/-- `dynamic` descriptor of a question (`dependency_questions`). -/
structure DynamicType where
  dependencyQuestions : List String

/-- The `type` block of a question. -/
structure QuestionType where
  dynamic : Option DynamicType
  interactive : Bool
  multiple : Bool

/-- A question definition: prompt, optional type block, raw choices. -/
structure Question where
  prompt : String
  type : Option QuestionType
  choices : Yaml

/-- `Question.IsMultiple`. -/
def Question.IsMultiple (q : Question) : Bool :=
  match q.type with
  | some t => t.multiple
  | none => false

/-- Appends the rendered elements of a choice list to `acc`, skipping the
ones already seen (the `allChoices` / `result` pair of the multi-value
branch). -/
def dedupAppendList (acc : List String) (cs : List Yaml) : List String :=
  cs.foldl
    (fun acc c =>
      let s := goFormat c
      if memStr acc s then acc else acc ++ [s])
    acc

/-- One parent value's contribution in the multi-value branch of
`resolveDynamicChoices`: a flat list is appended directly; a nested map
contributes every sub-entry that is itself a flat list; anything else is
silently ignored (the Go `switch` has no default case there). -/
def collectFromNext (acc : List String) : Yaml → List String
  | .list cs => dedupAppendList acc cs
  | .map mm =>
    mm.foldl
      (fun acc kv =>
        match kv.2 with
        | .list cs => dedupAppendList acc cs
        | _ => acc)
      acc
  | _ => acc

/-- The whole multi-value fan-out loop: parent values missing from the
mapping are skipped (`continue`), the rest contribute via
`collectFromNext`. -/
def multiCollect (m : List (String × Yaml)) (vals : List String) : List String :=
  vals.foldl
    (fun acc v =>
      match lookupV m v with
      | none => acc
      | some next => collectFromNext acc next)
    []

/-- The tail of `resolveDynamicChoices` once every dependency question has
been consumed. -/
def finalChoices : Yaml → Except String (List String)
  | .list cs => .ok (cs.map goFormat)
  | .map _ => .error "incomplete dependency resolution, remaining structure is a map"
  | _ => .error "final choices must be an array"

/-- The dependency-descent loop of `resolveDynamicChoices`.  For each
dependency question in order: a missing answer is an error; an answer with
two or more values triggers the fan-out branch which returns immediately
(remaining dependencies are never consulted); a single value navigates one
level down, returning early on a flat list. -/
def resolveLoop (answers : List (String × GoVal)) :
    List String → Yaml → Except String (List String)
  | [], current => finalChoices current
  | dep :: rest, current =>
    match lookupV answers dep with
    | none => .error ("dependency answer for " ++ dep ++ " not found")
    | some answer =>
      let vals := answerValues answer
      if 1 < vals.length then
        match current with
        | .map m => .ok (multiCollect m vals)
        | _ => .error "expected map for dependency lookup"
      else
        match vals with
        | [] => .error "runtime panic: index out of range"
        | v :: _ =>
          match current with
          | .map m =>
            match lookupV m v with
            | none => .error ("no choices found for " ++ dep ++ " = " ++ v)
            | some (.map mm) => resolveLoop answers rest (.map mm)
            | some (.list cs) => .ok (cs.map goFormat)
            | some _ => .error "invalid next value type"
          | _ => .error "expected map for dependency lookup"

/-- `Question.resolveDynamicChoices`: rejects a mapping-typed `choices`
without a `dynamic` descriptor, then runs the descent loop starting from
the whole mapping. -/
def Question.resolveDynamicChoices (q : Question) (m : List (String × Yaml))
    (answers : List (String × GoVal)) : Except String (List String) :=
  match q.type with
  | none => .error "dynamic type configuration missing"
  | some t =>
    match t.dynamic with
    | none => .error "dynamic type configuration missing"
    | some d => resolveLoop answers d.dependencyQuestions (.map m)

/-- `Question.GetChoices`: a flat sequence is rendered verbatim, a mapping
goes through dynamic resolution, anything else is an error. -/
def Question.GetChoices (q : Question) (answers : List (String × GoVal)) :
    Except String (List String) :=
  match q.choices with
  | .list cs => .ok (cs.map goFormat)
  | .map m => q.resolveDynamicChoices m answers
  | _ => .error "invalid choices type"

/-- The `questions` block: optional explicit order, optional
`template_question` (the empty string for the Go zero value), optional
`definitions`, and the backward-compatible inline map (`DirectMap`).
`none` models a nil Go map, `some []` an empty one. -/
structure Questions where
  order : List String
  templateQuestion : String
  definitions : Option (List (String × Question))
  directMap : Option (List (String × Question))

/-- `Questions.normalize`: lifts an inline map into `definitions` and
synthesizes `order` from the definition keys when absent. -/
def Questions.normalize (q : Questions) : Questions :=
  let q1 :=
    if q.definitions.isNone && q.directMap.isSome then
      { q with definitions := q.directMap, directMap := none }
    else q
  if q1.definitions.isSome && q1.order.isEmpty then
    { q1 with order := (q1.definitions.getD []).map Prod.fst }
  else q1

/-- `Questions.GetQuestions`: `definitions` when non-empty, otherwise the
inline map. -/
def Questions.GetQuestions (q : Questions) : List (String × Question) :=
  if 0 < (q.definitions.getD []).length then q.definitions.getD []
  else q.directMap.getD []

/-- `Questions.GetOrder`: the explicit order when non-empty, otherwise the
keys of the available questions. -/
def Questions.GetOrder (q : Questions) : List String :=
  if 0 < q.order.length then q.order else q.GetQuestions.map Prod.fst

/-- `Questions.GetTemplateQuestion`. -/
def Questions.GetTemplateQuestion (q : Questions) : String :=
  q.templateQuestion

/-- The top-level parsed configuration (the `templates` registry and the
`preview` block play no role in the claims under verification). -/
structure Config where
  questions : Questions

/-- The decision logic of `LoadConfig` after the file has been read: a
document that fails to parse is an error, any successfully parsed document
is normalized and returned as-is — there is no validation of the question
graph.  File-system path probing is outside the model. -/
def loadConfigFromParsed : Option Config → Except String Config
  | none => .error "failed to parse config file"
  | some c => .ok { c with questions := c.questions.normalize }

/-- The generator's state: the loaded question graph and the collected
answers (`g.config.Questions` and `g.answers`). -/
structure Generator where
  questions : Questions
  answers : List (String × GoVal)

/-- `Generator.copyAnswers` copies the answer map entry by entry; in a
value semantics the copy is the map itself. -/
def Generator.copyAnswers (g : Generator) : List (String × GoVal) :=
  g.answers

/-- The first loop of `determineTemplateAndMultiValues`: every question
flagged multiple whose answer is a `[]string` contributes to the
multi-value map, in question-map iteration order. -/
def Generator.collectMultiValues (g : Generator) : List (String × List String) :=
  g.questions.GetQuestions.foldl
    (fun acc kv =>
      if kv.2.IsMultiple then
        match lookupV g.answers kv.1 with
        | some (.strList l) => acc ++ [(kv.1, l)]
        | _ => acc
      else acc)
    []

/-- The heuristic fallback of `determineTemplateAndMultiValues`: scan the
question order and take the first non-multiple question whose answer is a
string (an empty-string answer leaves the scan running). -/
def Generator.heuristicTemplateType (g : Generator) : String :=
  g.questions.GetOrder.foldl
    (fun tt key =>
      match lookupV g.questions.GetQuestions key with
      | none => tt
      | some q =>
        if !q.IsMultiple && tt = "" then
          match lookupV g.answers key with
          | some (.str s) => s
          | _ => tt
        else tt)
    ""

/-- `Generator.determineTemplateAndMultiValues`: a configured
`template_question` is used directly (missing or non-string answers are
errors, with no fallback to the heuristic); otherwise the heuristic runs;
an empty template type is the final "no suitable template type" error. -/
def Generator.determineTemplateAndMultiValues (g : Generator) :
    Except String (String × List (String × List String)) :=
  let multi := g.collectMultiValues
  let tq := g.questions.GetTemplateQuestion
  if tq = "" then
    let tt := g.heuristicTemplateType
    if tt = "" then .error "no suitable template type found in answers"
    else .ok (tt, multi)
  else
    match lookupV g.answers tq with
    | none => .error ("template question " ++ tq ++ " not answered")
    | some (.str s) =>
      if s = "" then .error "no suitable template type found in answers"
      else .ok (s, multi)
    | some _ => .error ("template question " ++ tq ++ " must have a single string answer")

/-- Splits a character list at the first occurrence of the two-character
separator `": "` (Go `strings.SplitN(s, ": ", 2)`); `none` when the
separator does not occur (Go `strings.Contains`). -/
def splitColonSpace : List Char → Option (List Char × List Char)
  | ':' :: ' ' :: rest => some ([], rest)
  | c :: rest =>
    match splitColonSpace rest with
    | none => none
    | some (pre, post) => some (c :: pre, post)
  | [] => none

/-- `Generator.findParentQuestion`: the last entry of the question's
`dependency_questions`, or the empty string when the question is unknown
or not dynamic. -/
def Generator.findParentQuestion (g : Generator) (questionKey : String) : String :=
  match lookupV g.questions.GetQuestions questionKey with
  | none => ""
  | some q =>
    match q.type with
    | none => ""
    | some t =>
      match t.dynamic with
      | none => ""
      | some d =>
        match d.dependencyQuestions.getLast? with
        | none => ""
        | some p => p

/-- One selection of `parseHierarchicalSelections`: a value carrying the
hierarchical `"parent: child"` format contributes a two-entry value map
pinning the parent key, any other value a one-entry map. -/
def parseSelection (parentKey questionKey selection : String) :
    List (String × String) :=
  match splitColonSpace selection.data with
  | some (pre, post) =>
    [(parentKey, String.mk pre), (questionKey, String.mk post)]
  | none => [(questionKey, selection)]

/-- `Generator.parseHierarchicalSelections` over the multi-value map
(association-list iteration order stands in for Go map iteration). -/
def Generator.parseHierarchicalSelections (g : Generator)
    (multiValueQuestions : List (String × List String)) :
    List (String × List (List (String × String))) :=
  multiValueQuestions.map
    (fun kv => (kv.1, kv.2.map (parseSelection (g.findParentQuestion kv.1) kv.1)))

/-- Go map assignment `m[k] = v` on an association list: replace the first
binding or append. -/
def setKey {α : Type} : List (String × α) → String → α → List (String × α)
  | [], k, v => [(k, v)]
  | kv :: rest, k, v =>
    if kv.1 = k then (k, v) :: rest else kv :: setKey rest k v

/-- Go `delete(m, k)`: on the duplicate-free maps the generator builds
this removes the single binding of `k`. -/
def eraseKey {α : Type} : List (String × α) → String → List (String × α)
  | [], _ => []
  | kv :: rest, k =>
    if kv.1 = k then eraseKey rest k else kv :: eraseKey rest k

/-- The `for k, v := range valueMap { current[k] = v }` loop. -/
def insertAllVM (current vm : List (String × String)) : List (String × String) :=
  vm.foldl (fun c p => setKey c p.1 p.2) current

/-- The backtracking `for k := range valueMap { delete(current, k) }` loop. -/
def eraseAllVM (current vm : List (String × String)) : List (String × String) :=
  vm.foldl (fun c p => eraseKey c p.1) current

/-- The leaf of the recursion: copy the base answers and override them
with the current combination (string values become `GoVal.str`). -/
def mergeIntoAnswers (base : List (String × GoVal))
    (current : List (String × String)) : List (String × GoVal) :=
  current.foldl (fun acc p => setKey acc p.1 (GoVal.str p.2)) base

/-- `generateHierarchicalCombinationsRecursive`: one level per multi-value
question; at each level the value maps are tried in turn, inserted into
the shared `current` map, recursed on, then deleted again (the Go code
mutates one `current` map, so the map threads through the loop — deletion
removes a key outright even if an outer level had bound it). -/
def generateHierarchicalCombinationsRecursive (base : List (String × GoVal)) :
    List (List (List (String × String))) → List (String × String) →
      List (List (String × GoVal))
  | [], current => [mergeIntoAnswers base current]
  | vms :: rest, current =>
    (vms.foldl
      (fun acc vm =>
        let cur1 := insertAllVM acc.2 vm
        let combos := generateHierarchicalCombinationsRecursive base rest cur1
        let cur2 := eraseAllVM cur1 vm
        (acc.1 ++ combos, cur2))
      (([], current) : List (List (String × GoVal)) × List (String × String))).1

/-- `Generator.generateCombinations`: no multi-value questions yield the
single copied base combination; otherwise the parsed hierarchical value
maps are expanded recursively (only the per-question value-map lists feed
the recursion — the keys list is used for its length alone). -/
def Generator.generateCombinations (g : Generator)
    (multiValueQuestions : List (String × List String)) :
    List (List (String × GoVal)) :=
  if multiValueQuestions.length = 0 then
    [g.copyAnswers]
  else
    let processed := g.parseHierarchicalSelections multiValueQuestions
    generateHierarchicalCombinationsRecursive g.answers (processed.map Prod.snd) []

/-! Association-map lemmas. -/

theorem hasKey_eq_false_iff {α : Type} (m : List (String × α)) (k : String) :
    hasKey m k = false ↔ k ∉ m.map Prod.fst := by
  induction m with
  | nil => simp [hasKey]
  | cons kv rest ih =>
    by_cases h : kv.1 = k
    · simp only [hasKey, h, if_true, List.map_cons, List.mem_cons]
      constructor
      · intro hf
        simp at hf
      · intro hf
        exact absurd (Or.inl trivial) hf
    · simp only [hasKey, h, if_false, List.map_cons, List.mem_cons]
      rw [ih]
      constructor
      · intro hf hh
        rcases hh with hh | hh
        · exact h hh.symm
        · exact hf hh
      · intro hf hh
        exact hf (Or.inr hh)

theorem lookupV_setKey_self {α : Type} (m : List (String × α)) (k : String) (v : α) :
    lookupV (setKey m k v) k = some v := by
  induction m with
  | nil => simp [setKey, lookupV]
  | cons kv rest ih =>
    by_cases h : kv.1 = k <;> simp [setKey, lookupV, h, ih]

theorem lookupV_setKey_ne {α : Type} (m : List (String × α)) (k k' : String) (v : α)
    (h : k' ≠ k) : lookupV (setKey m k v) k' = lookupV m k' := by
  have hne : ¬(k = k') := fun hh => h hh.symm
  induction m with
  | nil => simp [setKey, lookupV, hne]
  | cons kv rest ih =>
    by_cases hk : kv.1 = k
    · subst hk
      simp only [setKey, if_pos rfl, lookupV, hne, if_false]
    · simp only [setKey, hk, if_false, lookupV]
      by_cases hk' : kv.1 = k' <;> simp [hk', ih]

theorem setKey_of_hasKey_false {α : Type} (m : List (String × α)) (k : String) (v : α)
    (h : hasKey m k = false) : setKey m k v = m ++ [(k, v)] := by
  induction m with
  | nil => simp [setKey]
  | cons kv rest ih =>
    simp only [hasKey] at h
    by_cases hk : kv.1 = k
    · simp [hk] at h
    · simp only [hk, if_false] at h
      simp [setKey, hk, ih h]

theorem eraseKey_of_hasKey_false {α : Type} (m : List (String × α)) (k : String)
    (h : hasKey m k = false) : eraseKey m k = m := by
  induction m with
  | nil => simp [eraseKey]
  | cons kv rest ih =>
    simp only [hasKey] at h
    by_cases hk : kv.1 = k
    · simp [hk] at h
    · simp only [hk, if_false] at h
      simp [eraseKey, hk, ih h]

theorem eraseKey_append {α : Type} (a b : List (String × α)) (k : String) :
    eraseKey (a ++ b) k = eraseKey a k ++ eraseKey b k := by
  induction a with
  | nil => simp [eraseKey]
  | cons kv rest ih =>
    by_cases hk : kv.1 = k <;> simp [eraseKey, hk, ih]

theorem setKey_append_left {α : Type} (a b : List (String × α)) (k : String) (v : α)
    (h : hasKey a k = false) : setKey (a ++ b) k v = a ++ setKey b k v := by
  induction a with
  | nil => simp
  | cons kv rest ih =>
    simp only [hasKey] at h
    by_cases hk : kv.1 = k
    · simp [hk] at h
    · simp only [hk, if_false] at h
      simp [setKey, hk, ih h]

theorem mem_setKey {α : Type} (m : List (String × α)) (k : String) (v : α)
    (kv : String × α) (h : kv ∈ setKey m k v) : kv ∈ m ∨ kv.1 = k := by
  induction m with
  | nil =>
    simp [setKey] at h
    simp [h]
  | cons kv0 rest ih =>
    by_cases hk : kv0.1 = k
    · simp only [setKey, hk, if_true] at h
      rcases List.mem_cons.1 h with h | h
      · right; simp [h]
      · left; exact List.mem_cons_of_mem _ h
    · simp only [setKey, hk, if_false] at h
      rcases List.mem_cons.1 h with h | h
      · left; exact h ▸ List.mem_cons_self _ _
      · rcases ih h with h | h
        · left; exact List.mem_cons_of_mem _ h
        · right; exact h

theorem hasKey_setKey_false {α : Type} (m : List (String × α)) (k k' : String) (v : α)
    (h : hasKey m k' = false) (hne : k' ≠ k) : hasKey (setKey m k v) k' = false := by
  rw [hasKey_eq_false_iff] at h ⊢
  intro hmem
  rcases List.mem_map.1 hmem with ⟨kv, hkv, hfst⟩
  rcases mem_setKey m k v kv hkv with hkv | hkv
  · exact h (List.mem_map.2 ⟨kv, hkv, hfst⟩)
  · exact hne (hfst ▸ hkv ▸ rfl)

theorem hasKey_eraseKey_false {α : Type} (m : List (String × α)) (k k' : String)
    (h : hasKey m k' = false) : hasKey (eraseKey m k) k' = false := by
  induction m with
  | nil => simp [eraseKey, hasKey]
  | cons kv rest ih =>
    simp only [hasKey] at h
    by_cases hk' : kv.1 = k'
    · simp [hk'] at h
    · simp only [hk', if_false] at h
      by_cases hk : kv.1 = k <;> simp [eraseKey, hasKey, hk, hk', ih h]

/-! Lemmas about the value-map insert/erase loops. -/

theorem insertAllVM_nil_vm (c : List (String × String)) : insertAllVM c [] = c := rfl

theorem insertAllVM_cons (c : List (String × String)) (p : String × String)
    (vm : List (String × String)) :
    insertAllVM c (p :: vm) = insertAllVM (setKey c p.1 p.2) vm := rfl

theorem eraseAllVM_cons (c : List (String × String)) (p : String × String)
    (vm : List (String × String)) :
    eraseAllVM c (p :: vm) = eraseAllVM (eraseKey c p.1) vm := rfl

theorem insertAllVM_append_left (a b vm : List (String × String))
    (h : ∀ p ∈ vm, hasKey a p.1 = false) :
    insertAllVM (a ++ b) vm = a ++ insertAllVM b vm := by
  induction vm generalizing b with
  | nil => rfl
  | cons p rest ih =>
    rw [insertAllVM_cons, insertAllVM_cons,
      setKey_append_left a b p.1 p.2 (h p (List.mem_cons_self _ _))]
    exact ih _ (fun p hp => h p (List.mem_cons_of_mem _ hp))

theorem insertAllVM_split (c vm : List (String × String))
    (h : ∀ p ∈ vm, hasKey c p.1 = false) :
    insertAllVM c vm = c ++ insertAllVM [] vm := by
  have := insertAllVM_append_left c [] vm h
  simpa using this

theorem mem_insertAllVM (c vm : List (String × String)) (kv : String × String)
    (h : kv ∈ insertAllVM c vm) : kv ∈ c ∨ kv.1 ∈ vm.map Prod.fst := by
  induction vm generalizing c with
  | nil => exact Or.inl h
  | cons p rest ih =>
    rw [insertAllVM_cons] at h
    rcases ih _ h with h | h
    · rcases mem_setKey c p.1 p.2 kv h with h | h
      · exact Or.inl h
      · right; simp [h]
    · right; simp [h]

theorem eraseAllVM_append (a b vm : List (String × String)) :
    eraseAllVM (a ++ b) vm = eraseAllVM a vm ++ eraseAllVM b vm := by
  induction vm generalizing a b with
  | nil => rfl
  | cons p rest ih =>
    rw [eraseAllVM_cons, eraseKey_append, ih]
    rfl

theorem eraseAllVM_of_disjoint (c vm : List (String × String))
    (h : ∀ p ∈ vm, hasKey c p.1 = false) : eraseAllVM c vm = c := by
  induction vm with
  | nil => rfl
  | cons p rest ih =>
    rw [eraseAllVM_cons, eraseKey_of_hasKey_false c p.1 (h p (List.mem_cons_self _ _))]
    exact ih (fun p hp => h p (List.mem_cons_of_mem _ hp))

theorem mem_eraseKey {α : Type} (m : List (String × α)) (k : String) (kv : String × α)
    (h : kv ∈ eraseKey m k) : kv ∈ m ∧ kv.1 ≠ k := by
  induction m with
  | nil => simp [eraseKey] at h
  | cons kv0 rest ih =>
    by_cases hk : kv0.1 = k
    · simp only [eraseKey, hk, if_true] at h
      rcases ih h with ⟨h1, h2⟩
      exact ⟨List.mem_cons_of_mem _ h1, h2⟩
    · simp only [eraseKey, hk, if_false] at h
      rcases List.mem_cons.1 h with h | h
      · subst h
        exact ⟨List.mem_cons_self _ _, hk⟩
      · rcases ih h with ⟨h1, h2⟩
        exact ⟨List.mem_cons_of_mem _ h1, h2⟩

theorem eraseAllVM_covered_nil (c vm : List (String × String))
    (h : ∀ kv ∈ c, kv.1 ∈ vm.map Prod.fst) : eraseAllVM c vm = [] := by
  induction vm generalizing c with
  | nil =>
    cases c with
    | nil => rfl
    | cons kv rest =>
      exact absurd (h kv (List.mem_cons_self _ _)) (by simp)
  | cons p rest ih =>
    rw [eraseAllVM_cons]
    refine ih _ (fun kv hkv => ?_)
    rcases mem_eraseKey c p.1 kv hkv with ⟨h1, h2⟩
    have := h kv h1
    simp only [List.map_cons, List.mem_cons] at this
    rcases this with hh | hh
    · exact absurd hh h2
    · exact hh

theorem insert_erase_cancel (current vm : List (String × String))
    (h : ∀ p ∈ vm, hasKey current p.1 = false) :
    eraseAllVM (insertAllVM current vm) vm = current := by
  rw [insertAllVM_split current vm h, eraseAllVM_append,
    eraseAllVM_of_disjoint current vm h,
    eraseAllVM_covered_nil (insertAllVM [] vm) vm
      (fun kv hkv => by
        rcases mem_insertAllVM [] vm kv hkv with hh | hh
        · simp at hh
        · exact hh),
    List.append_nil]

theorem hasKey_insertAllVM_false (c vm : List (String × String)) (k : String)
    (h : hasKey c k = false) (hvm : k ∉ vm.map Prod.fst) :
    hasKey (insertAllVM c vm) k = false := by
  induction vm generalizing c with
  | nil => exact h
  | cons p rest ih =>
    simp only [List.map_cons, List.mem_cons, not_or] at hvm
    rw [insertAllVM_cons]
    exact ih _ (hasKey_setKey_false c p.1 k p.2 h hvm.1) hvm.2

theorem hasKey_eraseAllVM_false (c vm : List (String × String)) (k : String)
    (h : hasKey c k = false) : hasKey (eraseAllVM c vm) k = false := by
  induction vm generalizing c with
  | nil => exact h
  | cons p rest ih =>
    rw [eraseAllVM_cons]
    exact ih _ (hasKey_eraseKey_false c p.1 k h)

/-! Lemmas about merging a combination into the base answers. -/

theorem lookupV_mergeIntoAnswers_notin (base : List (String × GoVal))
    (cur : List (String × String)) (k : String) (h : hasKey cur k = false) :
    lookupV (mergeIntoAnswers base cur) k = lookupV base k := by
  induction cur generalizing base with
  | nil => rfl
  | cons p rest ih =>
    simp only [hasKey] at h
    by_cases hk : p.1 = k
    · simp [hk] at h
    · simp only [hk, if_false] at h
      show lookupV (mergeIntoAnswers (setKey base p.1 (GoVal.str p.2)) rest) k = _
      rw [ih _ h, lookupV_setKey_ne base p.1 k (GoVal.str p.2) (fun hh => hk hh.symm)]

theorem lookupV_mergeIntoAnswers_mem (base : List (String × GoVal))
    (cur : List (String × String)) (k v : String)
    (hnd : (cur.map Prod.fst).Nodup) (hmem : (k, v) ∈ cur) :
    lookupV (mergeIntoAnswers base cur) k = some (GoVal.str v) := by
  induction cur generalizing base with
  | nil => simp at hmem
  | cons p rest ih =>
    simp only [List.map_cons, List.nodup_cons] at hnd
    rcases List.mem_cons.1 hmem with h | h
    · have hk : p.1 = k := by rw [← h]
      have hv : p.2 = v := by rw [← h]
      have hrest : hasKey rest k = false :=
        (hasKey_eq_false_iff rest k).2 (hk ▸ hnd.1)
      show lookupV (mergeIntoAnswers (setKey base p.1 (GoVal.str p.2)) rest) k = _
      rw [lookupV_mergeIntoAnswers_notin _ rest k hrest, hk, hv]
      exact lookupV_setKey_self base k (GoVal.str v)
    · exact ih _ hnd.2 h

/-! Cartesian-product combinatorics used to characterize the expander. -/

/-- Concatenation of the images of a list under a list-valued function. -/
def flatMapL {α β : Type} : List α → (α → List β) → List β
  | [], _ => []
  | x :: xs, f => f x ++ flatMapL xs f

/-- All ways of picking one element per inner list, in enumeration order. -/
def listProd {α : Type} : List (List α) → List (List α)
  | [] => [[]]
  | l :: ls => flatMapL l (fun x => (listProd ls).map (fun sel => x :: sel))

theorem flatMapL_congr {α β : Type} (l : List α) (f g : α → List β)
    (h : ∀ x ∈ l, f x = g x) : flatMapL l f = flatMapL l g := by
  induction l with
  | nil => rfl
  | cons x xs ih =>
    simp only [flatMapL, h x (List.mem_cons_self _ _)]
    rw [ih (fun x hx => h x (List.mem_cons_of_mem _ hx))]

theorem map_flatMapL {α β γ : Type} (l : List α) (g : α → List β) (f : β → γ) :
    (flatMapL l g).map f = flatMapL l (fun x => (g x).map f) := by
  induction l with
  | nil => rfl
  | cons x xs ih => simp [flatMapL, ih]

theorem mem_flatMapL {α β : Type} (l : List α) (f : α → List β) (y : β) :
    y ∈ flatMapL l f ↔ ∃ x ∈ l, y ∈ f x := by
  induction l with
  | nil => simp [flatMapL]
  | cons x xs ih => simp [flatMapL, ih]

theorem length_flatMapL_const {α β : Type} (l : List α) (f : α → List β) (n : Nat)
    (h : ∀ x ∈ l, (f x).length = n) : (flatMapL l f).length = l.length * n := by
  induction l with
  | nil => simp [flatMapL]
  | cons x xs ih =>
    simp only [flatMapL, List.length_append, List.length_cons,
      h x (List.mem_cons_self _ _), ih (fun x hx => h x (List.mem_cons_of_mem _ hx))]
    ring

theorem listProd_length {α : Type} (ls : List (List α)) :
    (listProd ls).length = (ls.map List.length).prod := by
  induction ls with
  | nil => simp [listProd]
  | cons l rest ih =>
    simp only [listProd, List.map_cons, List.prod_cons]
    rw [length_flatMapL_const l _ (listProd rest).length
      (fun x _ => by rw [List.length_map]), ih]

theorem flatMapL_singleton {α β : Type} (l : List α) (f : α → β) :
    flatMapL l (fun x => [f x]) = l.map f := by
  induction l with
  | nil => rfl
  | cons x xs ih => simp [flatMapL, ih]

theorem listProd_singleton {α : Type} (l : List α) :
    listProd [l] = l.map (fun x => [x]) := by
  show flatMapL l (fun x => [[x]]) = _
  exact flatMapL_singleton l (fun x => [x])

/-- The keys occurring in any value map of one expansion level. -/
def levelKeys (vms : List (List (String × String))) : List String :=
  flatMapL vms (fun vm => vm.map Prod.fst)

/-! Characterization of `generateHierarchicalCombinationsRecursive`. -/

theorem genRec_loop (base : List (String × GoVal))
    (rest : List (List (List (String × String))))
    (vms : List (List (String × String))) :
    ∀ (acc : List (List (String × GoVal))) (current : List (String × String)),
      (∀ vm ∈ vms, ∀ p ∈ vm, hasKey current p.1 = false) →
      (List.foldl
        (fun acc vm =>
          let cur1 := insertAllVM acc.2 vm
          let combos := generateHierarchicalCombinationsRecursive base rest cur1
          let cur2 := eraseAllVM cur1 vm
          (acc.1 ++ combos, cur2))
        (acc, current) vms)
      = (acc ++ flatMapL vms
            (fun vm => generateHierarchicalCombinationsRecursive base rest
              (insertAllVM current vm)),
         current) := by
  induction vms with
  | nil => intro acc current _; simp [flatMapL]
  | cons vm vms ih =>
    intro acc current h
    rw [List.foldl_cons]
    show List.foldl _
        (acc ++ generateHierarchicalCombinationsRecursive base rest (insertAllVM current vm),
         eraseAllVM (insertAllVM current vm) vm) vms = _
    rw [insert_erase_cancel current vm (h vm (List.mem_cons_self _ _)),
      ih _ current (fun vm hvm => h vm (List.mem_cons_of_mem _ hvm))]
    simp [flatMapL]

theorem genRec_cons (base : List (String × GoVal))
    (vms : List (List (String × String)))
    (rest : List (List (List (String × String))))
    (current : List (String × String))
    (h : ∀ vm ∈ vms, ∀ p ∈ vm, hasKey current p.1 = false) :
    generateHierarchicalCombinationsRecursive base (vms :: rest) current
      = flatMapL vms
          (fun vm => generateHierarchicalCombinationsRecursive base rest
            (insertAllVM current vm)) := by
  show (List.foldl
      (fun acc vm =>
        let cur1 := insertAllVM acc.2 vm
        let combos := generateHierarchicalCombinationsRecursive base rest cur1
        let cur2 := eraseAllVM cur1 vm
        (acc.1 ++ combos, cur2))
      ([], current) vms).1 = _
  rw [genRec_loop base rest vms [] current h]
  simp

theorem genRec_clean (base : List (String × GoVal)) :
    ∀ (levels : List (List (List (String × String)))) (current : List (String × String)),
      (∀ vms ∈ levels, ∀ vm ∈ vms, ∀ p ∈ vm, hasKey current p.1 = false) →
      List.Pairwise (fun l1 l2 => ∀ k ∈ levelKeys l2, k ∉ levelKeys l1) levels →
      generateHierarchicalCombinationsRecursive base levels current
        = (listProd levels).map
            (fun sel => mergeIntoAnswers base (List.foldl insertAllVM current sel)) := by
  intro levels
  induction levels with
  | nil => intro current _ _; simp [listProd, generateHierarchicalCombinationsRecursive]
  | cons vms rest ih =>
    intro current hdisj hpair
    rw [genRec_cons base vms rest current (hdisj vms (List.mem_cons_self _ _))]
    rcases List.pairwise_cons.1 hpair with ⟨hhead, htail⟩
    have hstep : ∀ vm ∈ vms,
        generateHierarchicalCombinationsRecursive base rest (insertAllVM current vm)
          = (listProd rest).map
              (fun sel => mergeIntoAnswers base
                (List.foldl insertAllVM (insertAllVM current vm) sel)) := by
      intro vm hvm
      refine ih (insertAllVM current vm) ?_ htail
      intro vms' hvms' vm' hvm' p hp
      refine hasKey_insertAllVM_false current vm p.1
        (hdisj vms' (List.mem_cons_of_mem _ hvms') vm' hvm' p hp) ?_
      intro hmem
      have hkey : p.1 ∈ levelKeys vms' :=
        (mem_flatMapL vms' _ p.1).2 ⟨vm', hvm', List.mem_map_of_mem Prod.fst hp⟩
      have hnot : p.1 ∉ levelKeys vms := hhead vms' hvms' p.1 hkey
      exact hnot ((mem_flatMapL vms _ p.1).2 ⟨vm, hvm, hmem⟩)
    rw [flatMapL_congr vms _ _ hstep]
    simp only [listProd, map_flatMapL, List.map_map]
    refine flatMapL_congr vms _ _ (fun vm _ => ?_)
    refine List.map_congr_left (fun sel _ => ?_)
    simp [List.foldl_cons]

theorem genRec_frame (base : List (String × GoVal)) (k : String) :
    ∀ (levels : List (List (List (String × String)))) (current : List (String × String)),
      (∀ vms ∈ levels, ∀ vm ∈ vms, ∀ p ∈ vm, p.1 ≠ k) →
      hasKey current k = false →
      ∀ c ∈ generateHierarchicalCombinationsRecursive base levels current,
        lookupV c k = lookupV base k := by
  intro levels
  induction levels with
  | nil =>
    intro current _ hcur c hc
    simp only [generateHierarchicalCombinationsRecursive, List.mem_singleton] at hc
    subst hc
    exact lookupV_mergeIntoAnswers_notin base current k hcur
  | cons vms rest ih =>
    intro current hlv hcur
    suffices hloop : ∀ (ws : List (List (String × String)))
        (acc : List (List (String × GoVal))) (cur : List (String × String)),
        (∀ vm ∈ ws, ∀ p ∈ vm, p.1 ≠ k) →
        hasKey cur k = false →
        (∀ c ∈ acc, lookupV c k = lookupV base k) →
        ∀ c ∈ (List.foldl
          (fun acc vm =>
            let cur1 := insertAllVM acc.2 vm
            let combos := generateHierarchicalCombinationsRecursive base rest cur1
            let cur2 := eraseAllVM cur1 vm
            (acc.1 ++ combos, cur2))
          (acc, cur) ws).1, lookupV c k = lookupV base k by
      intro c hc
      refine hloop vms [] current (hlv vms (List.mem_cons_self _ _)) hcur
        (by intro c hc; simp at hc) c ?_
      exact hc
    intro ws
    induction ws with
    | nil =>
      intro acc cur _ _ hacc c hc
      simpa using hacc c hc
    | cons vm ws ihw =>
      intro acc cur hws hcurk hacc c hc
      rw [List.foldl_cons] at hc
      have hcur1 : hasKey (insertAllVM cur vm) k = false := by
        refine hasKey_insertAllVM_false cur vm k hcurk ?_
        intro hmem
        rcases List.mem_map.1 hmem with ⟨p, hp, hfst⟩
        exact hws vm (List.mem_cons_self _ _) p hp hfst
      refine ihw (acc ++ generateHierarchicalCombinationsRecursive base rest
          (insertAllVM cur vm))
        (eraseAllVM (insertAllVM cur vm) vm)
        (fun vm' hvm' => hws vm' (List.mem_cons_of_mem _ hvm'))
        (hasKey_eraseAllVM_false _ vm k hcur1) ?_ c hc
      intro c' hc'
      rcases List.mem_append.1 hc' with hh | hh
      · exact hacc c' hh
      · exact ih (insertAllVM cur vm)
          (fun vms' hvms' => hlv vms' (List.mem_cons_of_mem _ hvms'))
          hcur1 c' hh

/-! Helpers for the expander claims. -/

theorem hasKey_append {α : Type} (a b : List (String × α)) (k : String) :
    hasKey (a ++ b) k = (hasKey a k || hasKey b k) := by
  induction a with
  | nil => simp [hasKey]
  | cons kv rest ih =>
    by_cases hk : kv.1 = k <;> simp [hasKey, hk, ih]

theorem forall2_map_self {α β : Type} (l : List α) (f : α → β) (R : α → β → Prop)
    (h : ∀ a ∈ l, R a (f a)) : List.Forall₂ R l (l.map f) := by
  induction l with
  | nil => simp
  | cons x xs ih =>
    simp only [List.map_cons]
    exact List.Forall₂.cons (h x (List.mem_cons_self _ _))
      (ih (fun a ha => h a (List.mem_cons_of_mem _ ha)))

theorem mem_levelKeys_singletonSel (vs : List String) (kk k : String)
    (h : k ∈ levelKeys (vs.map (fun sel => [(kk, sel)]))) : k = kk := by
  rcases (mem_flatMapL _ _ k).1 h with ⟨vm, hvm, hk⟩
  rcases List.mem_map.1 hvm with ⟨sel, _, hvmEq⟩
  subst hvmEq
  simpa using hk

theorem foldl_insert_singleton_pairs (pairs : List (String × String)) :
    ∀ c : List (String × String),
      (∀ p ∈ pairs, hasKey c p.1 = false) → (pairs.map Prod.fst).Nodup →
      List.foldl insertAllVM c (pairs.map (fun p => [p])) = c ++ pairs := by
  induction pairs with
  | nil => intro c _ _; simp
  | cons p rest ih =>
    intro c hc hnd
    simp only [List.map_cons, List.nodup_cons] at hnd
    simp only [List.map_cons, List.foldl_cons]
    have h1 : insertAllVM c [p] = c ++ [p] := by
      show setKey c p.1 p.2 = c ++ [p]
      exact setKey_of_hasKey_false c p.1 p.2 (hc p (List.mem_cons_self _ _))
    rw [h1, ih (c ++ [p]) ?_ hnd.2]
    · simp
    · intro q hq
      rw [hasKey_append]
      have hq1 : hasKey c q.1 = false := hc q (List.mem_cons_of_mem _ hq)
      have hq2 : hasKey [p] q.1 = false := by
        have hqp : q.1 ≠ p.1 := by
          intro hh
          exact hnd.1 (hh ▸ List.mem_map_of_mem Prod.fst hq)
        have hpq : ¬p.1 = q.1 := fun hh => hqp hh.symm
        simp [hasKey, hpq]
      rw [hq1, hq2]
      rfl

theorem zip_pairs_keys (mvq : List (String × List String)) (picks : List String)
    (h : List.Forall₂ (fun kv v => v ∈ kv.2) mvq picks) :
    (List.zipWith (fun (kv : String × List String) v => (kv.1, v)) mvq picks).map Prod.fst
      = mvq.map Prod.fst := by
  induction h with
  | nil => rfl
  | cons hr _ ih => simp [ih]

theorem zip_sel_mem_listProd (mvq : List (String × List String)) (picks : List String)
    (h : List.Forall₂ (fun kv v => v ∈ kv.2) mvq picks) :
    ((List.zipWith (fun (kv : String × List String) v => (kv.1, v)) mvq picks).map
        (fun p => [p]))
      ∈ listProd (mvq.map (fun kv => kv.2.map (fun sel => [(kv.1, sel)]))) := by
  induction h with
  | nil => simp [listProd]
  | @cons kv v mvqt pickst hr _ ih =>
    simp only [List.zipWith_cons_cons, List.map_cons, listProd]
    refine (mem_flatMapL _ _ _).2 ⟨[(kv.1, v)], List.mem_map_of_mem _ hr, ?_⟩
    exact List.mem_map_of_mem _ ih

theorem lookup_forall2_of_pairs (combo : List (String × GoVal)) :
    ∀ (mvq : List (String × List String)) (picks : List String),
      List.Forall₂ (fun kv v => v ∈ kv.2) mvq picks →
      (∀ pv ∈ List.zipWith (fun (kv : String × List String) v => (kv.1, v)) mvq picks,
        lookupV combo pv.1 = some (GoVal.str pv.2)) →
      List.Forall₂ (fun (kv : String × List String) v =>
        lookupV combo kv.1 = some (GoVal.str v)) mvq picks := by
  intro mvq picks h
  induction h with
  | nil => intro _; exact List.Forall₂.nil
  | @cons kv v mvqt pickst _ _ ih =>
    intro hall
    simp only [List.zipWith_cons_cons] at hall
    exact List.Forall₂.cons (hall (kv.1, v) (List.mem_cons_self _ _))
      (ih (fun pv hpv => hall pv (List.mem_cons_of_mem _ hpv)))

/-! Claim theorems about the combination expander. -/

/-- C1: when a single multi-select question's selections all carry the
hierarchical `"parent: child"` tag, the expander yields exactly one
combination per selection, each pinning the parent key (the last entry of
the question's `dependency_questions`) to the tagged parent value and the
question key to the tagged child value. -/
theorem c1_hierarchical_expansion (g : Generator) (qKey pKey : String)
    (selections : List String) (q : Question) (qt : QuestionType) (dt : DynamicType)
    (hq : lookupV g.questions.GetQuestions qKey = some q)
    (ht : q.type = some qt) (hd : qt.dynamic = some dt)
    (hlast : dt.dependencyQuestions.getLast? = some pKey)
    (hpq : pKey ≠ qKey) :
    (g.generateCombinations [(qKey, selections)]).length = selections.length ∧
    List.Forall₂
      (fun sel c => ∀ pre post, splitColonSpace sel.data = some (pre, post) →
        lookupV c pKey = some (GoVal.str (String.mk pre)) ∧
        lookupV c qKey = some (GoVal.str (String.mk post)))
      selections (g.generateCombinations [(qKey, selections)]) := by
  have hfp : g.findParentQuestion qKey = pKey := by
    simp [Generator.findParentQuestion, hq, ht, hd, hlast]
  have hexp : g.generateCombinations [(qKey, selections)]
      = selections.map (fun sel =>
          mergeIntoAnswers g.answers (insertAllVM [] (parseSelection pKey qKey sel))) := by
    have h1 : g.generateCombinations [(qKey, selections)]
        = generateHierarchicalCombinationsRecursive g.answers
            ((g.parseHierarchicalSelections [(qKey, selections)]).map Prod.snd) [] := rfl
    rw [h1]
    have h2 : (g.parseHierarchicalSelections [(qKey, selections)]).map Prod.snd
        = [selections.map (parseSelection pKey qKey)] := by
      simp [Generator.parseHierarchicalSelections, hfp]
    rw [h2, genRec_clean g.answers [selections.map (parseSelection pKey qKey)] []
      (fun _ _ _ _ _ _ => rfl) (List.pairwise_singleton _ _)]
    rw [listProd_singleton, List.map_map, List.map_map]
    rfl
  constructor
  · rw [hexp, List.length_map]
  · rw [hexp]
    refine forall2_map_self selections _ _ (fun sel _ => ?_)
    intro pre post hsplit
    have hps : parseSelection pKey qKey sel
        = [(pKey, String.mk pre), (qKey, String.mk post)] := by
      simp [parseSelection, hsplit]
    have hcur : insertAllVM [] [(pKey, String.mk pre), (qKey, String.mk post)]
        = [(pKey, String.mk pre), (qKey, String.mk post)] := by
      show setKey (setKey [] pKey (String.mk pre)) qKey (String.mk post) = _
      simp [setKey, hpq]
    rw [hps, hcur]
    have hnd : (([(pKey, String.mk pre), (qKey, String.mk post)]).map
        (Prod.fst (α := String) (β := String))).Nodup := by
      simp [hpq]
    constructor
    · exact lookupV_mergeIntoAnswers_mem g.answers _ pKey (String.mk pre) hnd
        (List.mem_cons_self _ _)
    · exact lookupV_mergeIntoAnswers_mem g.answers _ qKey (String.mk post) hnd
        (List.mem_cons_of_mem _ (List.mem_cons_self _ _))

/-- C3: with no hierarchical tags and pairwise-distinct selections, the
expander returns exactly the Cartesian product: the combination count is
the product of the per-question selection counts, and every tuple of
selections is realized by some returned combination. -/
theorem c3_cartesian_product (g : Generator) (mvq : List (String × List String))
    (huntag : ∀ kv ∈ mvq, ∀ sel ∈ kv.2, splitColonSpace sel.data = none)
    (hkeys : (mvq.map Prod.fst).Nodup)
    (hvals : ∀ kv ∈ mvq, kv.2.Nodup) :
    (g.generateCombinations mvq).length = (mvq.map (fun kv => kv.2.length)).prod ∧
    ∀ picks, List.Forall₂ (fun kv v => v ∈ kv.2) mvq picks →
      ∃ c ∈ g.generateCombinations mvq,
        List.Forall₂ (fun (kv : String × List String) v =>
          lookupV c kv.1 = some (GoVal.str v)) mvq picks := by
  cases mvq with
  | nil =>
    constructor
    · rfl
    · intro picks hp
      cases hp
      exact ⟨g.answers, List.mem_singleton.2 rfl, List.Forall₂.nil⟩
  | cons kv0 mvqt =>
    set mvq := kv0 :: mvqt with hmvq
    have hexp : g.generateCombinations mvq
        = (listProd (mvq.map (fun kv => kv.2.map (fun sel => [(kv.1, sel)])))).map
            (fun sel => mergeIntoAnswers g.answers (List.foldl insertAllVM [] sel)) := by
      have h1 : g.generateCombinations mvq
          = generateHierarchicalCombinationsRecursive g.answers
              ((g.parseHierarchicalSelections mvq).map Prod.snd) [] := rfl
      have h2 : (g.parseHierarchicalSelections mvq).map Prod.snd
          = mvq.map (fun kv => kv.2.map (fun sel => [(kv.1, sel)])) := by
        simp only [Generator.parseHierarchicalSelections, List.map_map]
        refine List.map_congr_left (fun kv hkv => ?_)
        refine List.map_congr_left (fun sel hsel => ?_)
        simp [parseSelection, huntag kv hkv sel hsel]
      rw [h1, h2, genRec_clean g.answers _ [] (fun _ _ _ _ _ _ => rfl) ?_]
      rw [List.pairwise_map]
      have hkp : List.Pairwise (fun (a b : String × List String) => a.1 ≠ b.1) mvq :=
        List.pairwise_map.1 hkeys
      refine hkp.imp ?_
      intro a b hab k hkb hka
      have h1 := mem_levelKeys_singletonSel b.2 b.1 k hkb
      have h2 := mem_levelKeys_singletonSel a.2 a.1 k hka
      exact hab (h2 ▸ h1 ▸ rfl)
    constructor
    · rw [hexp, List.length_map, listProd_length, List.map_map]
      refine congrArg List.prod (List.map_congr_left (fun kv _ => ?_))
      simp
    · intro picks hp
      have hpairsKeys := zip_pairs_keys mvq picks hp
      have hpairsNodup :
          ((List.zipWith (fun (kv : String × List String) v => (kv.1, v)) mvq picks).map
            Prod.fst).Nodup := by
        rw [hpairsKeys]; exact hkeys
      have hfold : List.foldl insertAllVM []
          ((List.zipWith (fun (kv : String × List String) v => (kv.1, v)) mvq picks).map
            (fun p => [p]))
          = List.zipWith (fun (kv : String × List String) v => (kv.1, v)) mvq picks := by
        rw [foldl_insert_singleton_pairs _ [] (fun _ _ => rfl) hpairsNodup]
        rfl
      refine ⟨mergeIntoAnswers g.answers
          (List.zipWith (fun (kv : String × List String) v => (kv.1, v)) mvq picks),
        ?_, ?_⟩
      · rw [hexp]
        refine List.mem_map.2 ⟨_, zip_sel_mem_listProd mvq picks hp, ?_⟩
        rw [hfold]
      · refine lookup_forall2_of_pairs _ mvq picks hp (fun pv hpv => ?_)
        have : (pv.1, pv.2) ∈ List.zipWith
            (fun (kv : String × List String) v => (kv.1, v)) mvq picks := by
          simpa using hpv
        exact lookupV_mergeIntoAnswers_mem g.answers _ pv.1 pv.2 hpairsNodup this

/-- C10: every combination the expander returns agrees with the base
answer map on every key that no parsed value map assigns (neither a
multi-select question key nor a pinned parent key); in the pure model the
base map itself is never modified. -/
theorem c10_frame_property (g : Generator) (mvq : List (String × List String)) (k : String)
    (h : ∀ entry ∈ g.parseHierarchicalSelections mvq, ∀ vm ∈ entry.2, ∀ p ∈ vm, p.1 ≠ k) :
    ∀ c ∈ g.generateCombinations mvq, lookupV c k = lookupV g.answers k := by
  cases mvq with
  | nil =>
    intro c hc
    have : c = g.answers := List.mem_singleton.1 hc
    rw [this]
  | cons kv0 mvqt =>
    intro c hc
    have h1 : g.generateCombinations (kv0 :: mvqt)
        = generateHierarchicalCombinationsRecursive g.answers
            ((g.parseHierarchicalSelections (kv0 :: mvqt)).map Prod.snd) [] := rfl
    rw [h1] at hc
    refine genRec_frame g.answers k _ [] ?_ rfl c hc
    intro vms hvms vm hvm p hp
    rcases List.mem_map.1 hvms with ⟨entry, hentry, hsnd⟩
    exact h entry hentry vm (hsnd ▸ hvm) p hp

/-! Concrete configuration used to instantiate the claim theorems: an
`app` single-select, a multi-select `env`, and a multi-select `cluster`
whose choices depend on `env` (the example config of the test suite). -/

def appQ : Question :=
  ⟨"Which app?", some ⟨none, false, false⟩, .list [.str "deployment", .str "job"]⟩

def envQ : Question :=
  ⟨"Which env?", some ⟨none, false, true⟩, .list [.str "dev", .str "staging"]⟩

def clusterQ : Question :=
  ⟨"Which cluster?", some ⟨some ⟨["env"]⟩, false, true⟩,
    .map [("dev", .list [.str "c1", .str "c2"]),
          ("staging", .list [.str "c3"])]⟩

def gEx : Generator :=
  ⟨⟨["app", "env", "cluster"], "",
    some [("app", appQ), ("env", envQ), ("cluster", clusterQ)], none⟩,
   [("app", GoVal.str "deployment")]⟩

/-- Witness for C1 at the spec's example: three tagged cluster selections
yield exactly the three combinations, each pinning `env` to the tagged
parent — in particular `(staging, c1)` never occurs. -/
theorem c1_hierarchical_expansion_witness :
    (gEx.generateCombinations
      [("cluster", ["dev: c1", "dev: c2", "staging: c3"])]).length = 3 ∧
    gEx.generateCombinations [("cluster", ["dev: c1", "dev: c2", "staging: c3"])]
      = [[("app", GoVal.str "deployment"), ("env", GoVal.str "dev"),
          ("cluster", GoVal.str "c1")],
         [("app", GoVal.str "deployment"), ("env", GoVal.str "dev"),
          ("cluster", GoVal.str "c2")],
         [("app", GoVal.str "deployment"), ("env", GoVal.str "staging"),
          ("cluster", GoVal.str "c3")]] :=
  ⟨(c1_hierarchical_expansion gEx "cluster" "env"
      ["dev: c1", "dev: c2", "staging: c3"] clusterQ
      ⟨some ⟨["env"]⟩, false, true⟩ ⟨["env"]⟩ rfl rfl rfl rfl (by decide)).1,
   rfl⟩

/-- Witness for C3 at the spec's example: `env × cluster` with two
untagged values each yields exactly four combinations, and the
`(staging, c1)` tuple is covered. -/
theorem c3_cartesian_product_witness :
    (gEx.generateCombinations
      [("env", ["dev", "staging"]), ("cluster", ["c1", "c2"])]).length = 4 ∧
    ∃ c ∈ gEx.generateCombinations
        [("env", ["dev", "staging"]), ("cluster", ["c1", "c2"])],
      List.Forall₂ (fun (kv : String × List String) v =>
          lookupV c kv.1 = some (GoVal.str v))
        [("env", ["dev", "staging"]), ("cluster", ["c1", "c2"])] ["staging", "c1"] := by
  have h := c3_cartesian_product gEx
    [("env", ["dev", "staging"]), ("cluster", ["c1", "c2"])]
    (by decide) (by decide) (by decide)
  exact ⟨h.1, h.2 ["staging", "c1"]
    (List.Forall₂.cons (by decide) (List.Forall₂.cons (by decide) List.Forall₂.nil))⟩

/-- Witness for C10: with one tagged cluster selection, the `app` key —
untouched by the value maps — keeps its base answer in the returned
combination. -/
theorem c10_frame_property_witness :
    [("app", GoVal.str "deployment"), ("env", GoVal.str "dev"),
      ("cluster", GoVal.str "c1")]
      ∈ gEx.generateCombinations [("cluster", ["dev: c1"])] ∧
    lookupV [("app", GoVal.str "deployment"), ("env", GoVal.str "dev"),
      ("cluster", GoVal.str "c1")] "app" = lookupV gEx.answers "app" :=
  ⟨List.mem_singleton.2 rfl,
   c10_frame_property gEx [("cluster", ["dev: c1"])] "app" (by decide)
     _ (List.mem_singleton.2 rfl)⟩

/-! Specification-side vocabulary for the resolver claims. -/

/-- One step of first-seen deduplication. -/
def dedupStep (acc : List String) (s : String) : List String :=
  if memStr acc s then acc else acc ++ [s]

/-- First-seen deduplication of a whole list: each string keeps the
position of its first occurrence. -/
def dedupFirstSeen (l : List String) : List String :=
  l.foldl dedupStep []

/-- The flat choice list found under a parent value, empty when the entry
is missing or not a flat list. -/
def flatListAt (m : List (String × Yaml)) (v : String) : List Yaml :=
  match lookupV m v with
  | some (.list cs) => cs
  | _ => []

/-- The choices one parent value contributes in the fan-out branch: a flat
list verbatim, a nested mapping through its flat-list sub-entries only
(one level deep), anything else nothing. -/
def directChoicesUnder (m : List (String × Yaml)) (v : String) : List String :=
  match lookupV m v with
  | some (.list cs) => cs.map goFormat
  | some (.map mm) =>
    flatMapL mm (fun kv =>
      match kv.2 with
      | .list cs => cs.map goFormat
      | _ => [])
  | _ => []

theorem foldl_congr_fun {α β : Type} (l : List β) (f g : α → β → α) (a : α)
    (h : ∀ a x, x ∈ l → f a x = g a x) : l.foldl f a = l.foldl g a := by
  induction l generalizing a with
  | nil => rfl
  | cons x xs ih =>
    simp only [List.foldl_cons]
    rw [h a x (List.mem_cons_self _ _)]
    exact ih _ (fun a x hx => h a x (List.mem_cons_of_mem _ hx))

theorem foldl_flatMapL {α β γ : Type} (l : List α) (g : α → List γ)
    (f : β → γ → β) (a : β) :
    (flatMapL l g).foldl f a = l.foldl (fun b x => (g x).foldl f b) a := by
  induction l generalizing a with
  | nil => rfl
  | cons x xs ih =>
    simp only [flatMapL, List.foldl_append, List.foldl_cons]
    exact ih _

theorem dedupAppendList_eq (acc : List String) (cs : List Yaml) :
    dedupAppendList acc cs = (cs.map goFormat).foldl dedupStep acc := by
  rw [List.foldl_map]
  rfl

theorem collect_step_eq (m : List (String × Yaml)) (acc : List String) (v : String) :
    (match lookupV m v with
      | none => acc
      | some next => collectFromNext acc next)
      = (directChoicesUnder m v).foldl dedupStep acc := by
  unfold directChoicesUnder
  cases hv : lookupV m v with
  | none => rfl
  | some next =>
    cases next with
    | str s => rfl
    | list cs => exact dedupAppendList_eq acc cs
    | map mm =>
      show collectFromNext acc (.map mm) = _
      unfold collectFromNext
      rw [foldl_flatMapL]
      refine foldl_congr_fun mm _ _ acc (fun a kv _ => ?_)
      cases kv.2 with
      | str s => rfl
      | list cs => exact dedupAppendList_eq a cs
      | map mm2 => rfl

theorem multiCollect_eq_dedup (m : List (String × Yaml)) (vs : List String) :
    multiCollect m vs = dedupFirstSeen (flatMapL vs (directChoicesUnder m)) := by
  suffices haux : ∀ (vs : List String) (acc : List String),
      List.foldl
        (fun acc v =>
          match lookupV m v with
          | none => acc
          | some next => collectFromNext acc next)
        acc vs
      = (flatMapL vs (directChoicesUnder m)).foldl dedupStep acc by
    exact haux vs []
  intro vs
  induction vs with
  | nil => intro acc; rfl
  | cons v rest ih =>
    intro acc
    simp only [List.foldl_cons, flatMapL, List.foldl_append]
    rw [collect_step_eq m acc v]
    exact ih _

theorem multiCollect_skip_missing (m : List (String × Yaml)) (vs : List String) :
    multiCollect m vs
      = multiCollect m (vs.filter (fun v => (lookupV m v).isSome)) := by
  suffices haux : ∀ (vs : List String) (acc : List String),
      List.foldl
        (fun acc v =>
          match lookupV m v with
          | none => acc
          | some next => collectFromNext acc next)
        acc vs
      = List.foldl
          (fun acc v =>
            match lookupV m v with
            | none => acc
            | some next => collectFromNext acc next)
          acc (vs.filter (fun v => (lookupV m v).isSome)) by
    exact haux vs []
  intro vs
  induction vs with
  | nil => intro acc; rfl
  | cons v rest ih =>
    intro acc
    cases hv : lookupV m v with
    | none => simp [List.filter_cons, hv, ih]
    | some next => simp [List.filter_cons, hv, ih]

theorem multiCollect_all_missing (m : List (String × Yaml)) (vs : List String)
    (h : ∀ v ∈ vs, lookupV m v = none) : multiCollect m vs = [] := by
  suffices haux : ∀ (vs : List String) (acc : List String),
      (∀ v ∈ vs, lookupV m v = none) →
      List.foldl
        (fun acc v =>
          match lookupV m v with
          | none => acc
          | some next => collectFromNext acc next)
        acc vs = acc by
    exact haux vs [] h
  intro vs
  induction vs with
  | nil => intro acc _; rfl
  | cons v rest ih =>
    intro acc hall
    simp only [List.foldl_cons, hall v (List.mem_cons_self _ _)]
    exact ih _ (fun v hv => hall v (List.mem_cons_of_mem _ hv))

/-! Entry lemmas for the resolver's fan-out and single-value branches. -/

theorem getChoices_fanout (q : Question) (qt : QuestionType) (d : String)
    (rest : List String) (m : List (String × Yaml))
    (answers : List (String × GoVal)) (vs : List String)
    (ht : q.type = some qt) (hd : qt.dynamic = some ⟨d :: rest⟩)
    (hch : q.choices = .map m)
    (ha : lookupV answers d = some (GoVal.strList vs)) (hlen : 2 ≤ vs.length) :
    q.GetChoices answers = .ok (multiCollect m vs) := by
  simp only [Question.GetChoices, hch, Question.resolveDynamicChoices, ht, hd]
  simp only [resolveLoop, ha, answerValues]
  rw [if_pos (by omega : 1 < vs.length)]

theorem getChoices_single_missing (q : Question) (qt : QuestionType) (d : String)
    (rest : List String) (m : List (String × Yaml))
    (answers : List (String × GoVal)) (v : String)
    (ht : q.type = some qt) (hd : qt.dynamic = some ⟨d :: rest⟩)
    (hch : q.choices = .map m)
    (ha : lookupV answers d = some (GoVal.str v)) (hmiss : lookupV m v = none) :
    q.GetChoices answers = .error ("no choices found for " ++ d ++ " = " ++ v) := by
  simp only [Question.GetChoices, hch, Question.resolveDynamicChoices, ht, hd]
  simp only [resolveLoop, ha, answerValues]
  rw [if_neg (by simp : ¬1 < ([v] : List String).length)]
  simp only [hmiss]

/-! Claim theorems about the choice resolver. -/

/-- C4: with a multi-valued dependency answer whose parent values all lead
to flat choice lists, the resolver returns the first-seen-order
deduplicated union of those lists, in parent-value order. -/
theorem c4_multi_dep_union (q : Question) (qt : QuestionType) (d : String)
    (rest : List String) (m : List (String × Yaml))
    (answers : List (String × GoVal)) (vs : List String)
    (ht : q.type = some qt) (hd : qt.dynamic = some ⟨d :: rest⟩)
    (hch : q.choices = .map m)
    (ha : lookupV answers d = some (GoVal.strList vs)) (hlen : 2 ≤ vs.length)
    (hflat : ∀ v ∈ vs, ∃ cs, lookupV m v = some (.list cs)) :
    q.GetChoices answers
      = .ok (dedupFirstSeen
          (flatMapL vs (fun v => (flatListAt m v).map goFormat))) := by
  rw [getChoices_fanout q qt d rest m answers vs ht hd hch ha hlen,
    multiCollect_eq_dedup]
  refine congrArg _ (congrArg dedupFirstSeen (flatMapL_congr vs _ _ (fun v hv => ?_)))
  rcases hflat v hv with ⟨cs, hcs⟩
  simp [directChoicesUnder, flatListAt, hcs]

/-- C5 (amended): when a multi-valued dependency answer is consumed, the
resolver returns immediately — the remaining dependency questions (and
their answers) are never consulted — and a parent value whose entry is a
nested mapping contributes the choices of all its flat-list sub-entries,
one level deep, deduplicated in first-seen order. -/
theorem c5_amended_fanout_collects_all (q : Question) (qt : QuestionType) (d : String)
    (rest : List String) (m : List (String × Yaml))
    (answers : List (String × GoVal)) (vs : List String)
    (ht : q.type = some qt) (hd : qt.dynamic = some ⟨d :: rest⟩)
    (hch : q.choices = .map m)
    (ha : lookupV answers d = some (GoVal.strList vs)) (hlen : 2 ≤ vs.length) :
    q.GetChoices answers
      = .ok (dedupFirstSeen (flatMapL vs (directChoicesUnder m))) := by
  rw [getChoices_fanout q qt d rest m answers vs ht hd hch ha hlen,
    multiCollect_eq_dedup]

/-- Cluster question with a two-level dependency chain (`env`, then
`region`) used to refute C5 as stated. -/
def nestedDepQ : Question :=
  ⟨"Which cluster?", some ⟨some ⟨["env", "region"]⟩, false, true⟩,
    .map [("dev", .map [("us", .list [.str "a"]), ("eu", .list [.str "b"])])]⟩

/-- Counterexample to C5 as stated: with `env = [dev, prod]` (multi) and
`region = us`, descent by the next dependency would give `[a]`, but the
resolver collects the choices of every sub-key of the nested mapping and
returns `[a, b]`. -/
theorem c5_counterexample :
    nestedDepQ.GetChoices [("env", GoVal.strList ["dev", "prod"]), ("region", GoVal.str "us")]
      = .ok ["a", "b"] ∧
    nestedDepQ.GetChoices [("env", GoVal.strList ["dev", "prod"]), ("region", GoVal.str "us")]
      ≠ .ok ["a"] := by
  constructor
  · rfl
  · intro h
    have h2 : (Except.ok ["a", "b"] : Except String (List String)) = .ok ["a"] := by
      rw [← h]
      rfl
    simp at h2

/-- Witness for C5's amended theorem at the counterexample input. -/
theorem c5_amended_fanout_collects_all_witness :
    nestedDepQ.GetChoices [("env", GoVal.strList ["dev", "prod"]), ("region", GoVal.str "us")]
      = .ok (dedupFirstSeen (flatMapL ["dev", "prod"]
          (directChoicesUnder [("dev", .map [("us", .list [.str "a"]),
            ("eu", .list [.str "b"])])]))) :=
  c5_amended_fanout_collects_all nestedDepQ ⟨some ⟨["env", "region"]⟩, false, true⟩
    "env" ["region"] _ _ ["dev", "prod"] rfl rfl rfl rfl (by decide)

/-- C9: in the fan-out branch a parent value that does not key into the
mapping is skipped silently — the result only depends on the present
values, and when none is present the resolver returns an empty list
without error — whereas a single-valued dependency answer that does not
key in is the "no choices found" error. -/
theorem c9_missing_parent_values_skipped (q : Question) (qt : QuestionType) (d : String)
    (rest : List String) (m : List (String × Yaml))
    (ht : q.type = some qt) (hd : qt.dynamic = some ⟨d :: rest⟩)
    (hch : q.choices = .map m) :
    (∀ (answers : List (String × GoVal)) (vs : List String),
      lookupV answers d = some (GoVal.strList vs) → 2 ≤ vs.length →
      q.GetChoices answers = .ok (multiCollect m vs) ∧
      multiCollect m vs = multiCollect m (vs.filter (fun v => (lookupV m v).isSome)) ∧
      ((∀ v ∈ vs, lookupV m v = none) → q.GetChoices answers = .ok [])) ∧
    (∀ (answers : List (String × GoVal)) (v : String),
      lookupV answers d = some (GoVal.str v) → lookupV m v = none →
      q.GetChoices answers = .error ("no choices found for " ++ d ++ " = " ++ v)) := by
  constructor
  · intro answers vs ha hlen
    refine ⟨getChoices_fanout q qt d rest m answers vs ht hd hch ha hlen,
      multiCollect_skip_missing m vs, fun hmiss => ?_⟩
    rw [getChoices_fanout q qt d rest m answers vs ht hd hch ha hlen,
      multiCollect_all_missing m vs hmiss]
  · intro answers v ha hmiss
    exact getChoices_single_missing q qt d rest m answers v ht hd hch ha hmiss

/-- The cluster question of the repository's own resolver test
(`TestQuestionGetDynamicChoices`). -/
def clusterQTest : Question :=
  ⟨"Which cluster?", some ⟨some ⟨["env"]⟩, false, true⟩,
    .map [("dev", .list [.str "dev-cluster-1", .str "dev-cluster-2"]),
          ("staging", .list [.str "staging-cluster-1"])]⟩

/-- C2: at the input of the repository's own test, the resolver returns
the bare child values — none of the returned choices carries the
`"parent: child"` tag the test (and the spec) expect. -/
theorem c2_resolver_emits_bare_values :
    clusterQTest.GetChoices [("env", GoVal.strList ["dev", "staging"])]
      = .ok ["dev-cluster-1", "dev-cluster-2", "staging-cluster-1"] ∧
    ∀ s ∈ (["dev-cluster-1", "dev-cluster-2", "staging-cluster-1"] : List String),
      splitColonSpace s.data = none :=
  ⟨rfl, by decide⟩

/-- Witness for C4 at the test configuration: `env = [dev, staging]`
yields the deduplicated union of the two flat cluster lists, in order. -/
theorem c4_multi_dep_union_witness :
    clusterQTest.GetChoices [("env", GoVal.strList ["dev", "staging"])]
      = .ok (dedupFirstSeen (flatMapL ["dev", "staging"]
          (fun v => (flatListAt
            [("dev", .list [.str "dev-cluster-1", .str "dev-cluster-2"]),
             ("staging", .list [.str "staging-cluster-1"])] v).map goFormat))) ∧
    dedupFirstSeen (flatMapL ["dev", "staging"]
        (fun v => (flatListAt
          [("dev", .list [.str "dev-cluster-1", .str "dev-cluster-2"]),
           ("staging", .list [.str "staging-cluster-1"])] v).map goFormat))
      = ["dev-cluster-1", "dev-cluster-2", "staging-cluster-1"] :=
  ⟨c4_multi_dep_union clusterQTest ⟨some ⟨["env"]⟩, false, true⟩ "env" [] _ _
      ["dev", "staging"] rfl rfl rfl rfl (by decide)
      (by
        intro v hv
        simp only [List.mem_cons, List.not_mem_nil, or_false] at hv
        rcases hv with rfl | rfl
        · exact ⟨_, rfl⟩
        · exact ⟨_, rfl⟩),
   rfl⟩

/-- Witness for C9 at the test configuration: all-missing parent values
yield an empty result without error, while a single missing value is the
"no choices found" error. -/
theorem c9_missing_parent_values_skipped_witness :
    clusterQTest.GetChoices [("env", GoVal.strList ["prod", "qa"])] = .ok [] ∧
    clusterQTest.GetChoices [("env", GoVal.str "prod")]
      = .error "no choices found for env = prod" := by
  have h := c9_missing_parent_values_skipped clusterQTest
    ⟨some ⟨["env"]⟩, false, true⟩ "env" [] _ rfl rfl rfl
  refine ⟨(h.1 [("env", GoVal.strList ["prod", "qa"])] ["prod", "qa"] rfl (by decide)).2.2
      ?_, h.2 [("env", GoVal.str "prod")] "prod" rfl rfl⟩
  intro v hv
  simp only [List.mem_cons, List.not_mem_nil, or_false] at hv
  rcases hv with rfl | rfl
  · rfl
  · rfl

/-! Claim theorems about template determination and schema loading. -/

/-- C6: whenever `template_question` is configured, its answer alone
decides the template name — a missing answer or a non-string answer is an
error (the heuristic is never consulted), and a string answer is used
directly. -/
theorem c6_template_question_strict (g : Generator)
    (htq : g.questions.GetTemplateQuestion ≠ "") :
    (lookupV g.answers g.questions.GetTemplateQuestion = none →
      g.determineTemplateAndMultiValues
        = .error ("template question " ++ g.questions.GetTemplateQuestion
            ++ " not answered")) ∧
    (∀ v, lookupV g.answers g.questions.GetTemplateQuestion = some v →
      (∀ s, v ≠ GoVal.str s) →
      g.determineTemplateAndMultiValues
        = .error ("template question " ++ g.questions.GetTemplateQuestion
            ++ " must have a single string answer")) ∧
    (∀ s, lookupV g.answers g.questions.GetTemplateQuestion = some (GoVal.str s) →
      s ≠ "" →
      g.determineTemplateAndMultiValues = .ok (s, g.collectMultiValues)) := by
  refine ⟨fun ha => ?_, fun v ha hv => ?_, fun s ha hs => ?_⟩
  · simp [Generator.determineTemplateAndMultiValues, htq, ha]
  · cases v with
    | str s => exact absurd rfl (hv s)
    | strList l => simp [Generator.determineTemplateAndMultiValues, htq, ha]
    | anyList l => simp [Generator.determineTemplateAndMultiValues, htq, ha]
    | other y => simp [Generator.determineTemplateAndMultiValues, htq, ha]
  · simp [Generator.determineTemplateAndMultiValues, htq, ha, hs]

/-- Generator with `template_question := app` whose `app` question was
never answered (the `env` multi-select was). -/
def gTQ : Generator :=
  ⟨⟨["app", "env"], "app", some [("app", appQ), ("env", envQ)], none⟩,
   [("env", GoVal.strList ["dev"])]⟩

/-- Witness for C6: with `template_question = app` unanswered, template
determination fails with the "not answered" error; with a list answer it
fails with the "single string answer" error. -/
theorem c6_template_question_strict_witness :
    gTQ.determineTemplateAndMultiValues = .error "template question app not answered" ∧
    ({ gTQ with answers := [("app", GoVal.strList ["deployment"])] } :
        Generator).determineTemplateAndMultiValues
      = .error "template question app must have a single string answer" := by
  constructor
  · exact (c6_template_question_strict gTQ (by decide)).1 rfl
  · exact (c6_template_question_strict
      { gTQ with answers := [("app", GoVal.strList ["deployment"])] } (by decide)).2.1
      (GoVal.strList ["deployment"]) rfl (fun s h => by cases h)

/-- A configuration document that parsed successfully but carries neither
`definitions` nor an inline question map. -/
def emptyQuestionsConfig : Config := ⟨⟨[], "", none, none⟩⟩

/-- Counterexample to C7 as stated: loading a parsed document with no
question definitions at all succeeds — `LoadConfig` returns the
configuration with an empty question graph instead of failing. -/
theorem c7_counterexample :
    loadConfigFromParsed (some emptyQuestionsConfig) = .ok emptyQuestionsConfig ∧
    emptyQuestionsConfig.questions.normalize.GetQuestions = [] := ⟨rfl, rfl⟩

/-- C7 (amended): after a successful parse, loading always succeeds with
the normalized question graph — no validation rejects an empty graph; only
a parse failure is an error. -/
theorem c7_amended_load_total (c : Config) :
    loadConfigFromParsed (some c) = .ok ⟨c.questions.normalize⟩ ∧
    loadConfigFromParsed none = .error "failed to parse config file" :=
  ⟨rfl, rfl⟩

/-- Witness for C7's amended theorem at a non-empty configuration. -/
theorem c7_amended_load_total_witness :
    loadConfigFromParsed (some ⟨⟨["app"], "app", some [("app", appQ)], none⟩⟩)
      = .ok ⟨(⟨["app"], "app", some [("app", appQ)], none⟩ : Questions).normalize⟩ :=
  (c7_amended_load_total ⟨⟨["app"], "app", some [("app", appQ)], none⟩⟩).1

/-- C8: the legacy inline-map form and the canonical order/definitions
form (with an order listing the same keys) normalize to equivalent
question graphs: both expose the very same definitions via
`GetQuestions`, and both orders are non-empty and consist of exactly the
definition keys (synthesized from them in the legacy case). -/
theorem c8_legacy_canonical_equiv (defs : List (String × Question))
    (ord : List String) (t : String)
    (hne : defs ≠ [])
    (hord : ∀ k, k ∈ ord ↔ k ∈ defs.map Prod.fst) :
    (⟨[], t, none, some defs⟩ : Questions).normalize.GetQuestions = defs ∧
    (⟨ord, t, some defs, none⟩ : Questions).normalize.GetQuestions = defs ∧
    (⟨[], t, none, some defs⟩ : Questions).normalize.GetOrder ≠ [] ∧
    (⟨ord, t, some defs, none⟩ : Questions).normalize.GetOrder ≠ [] ∧
    (∀ k, k ∈ (⟨[], t, none, some defs⟩ : Questions).normalize.GetOrder
      ↔ k ∈ defs.map Prod.fst) ∧
    (∀ k, k ∈ (⟨ord, t, some defs, none⟩ : Questions).normalize.GetOrder
      ↔ k ∈ defs.map Prod.fst) := by
  have hlen : 0 < defs.length := List.length_pos.2 hne
  have hordne : ord ≠ [] := by
    cases hdefs : defs with
    | nil => exact absurd hdefs hne
    | cons kv rest =>
      have hk : kv.1 ∈ defs.map Prod.fst := by
        rw [hdefs]; exact List.mem_cons_self _ _
      exact List.ne_nil_of_mem ((hord kv.1).2 hk)
  have hoe : ord.isEmpty = false := by
    cases ord with
    | nil => exact absurd rfl hordne
    | cons x xs => rfl
  have hlegacy : (⟨[], t, none, some defs⟩ : Questions).normalize
      = ⟨defs.map Prod.fst, t, some defs, none⟩ := by
    simp [Questions.normalize]
  have hcanon : (⟨ord, t, some defs, none⟩ : Questions).normalize
      = ⟨ord, t, some defs, none⟩ := by
    simp [Questions.normalize, hoe]
  have hmaplen : 0 < (defs.map Prod.fst).length := by
    rw [List.length_map]; exact hlen
  have hgl : (⟨defs.map Prod.fst, t, some defs, none⟩ : Questions).GetQuestions = defs := by
    show (if 0 < defs.length then defs else []) = defs
    rw [if_pos hlen]
  have hcl : (⟨ord, t, some defs, none⟩ : Questions).GetQuestions = defs := by
    show (if 0 < defs.length then defs else []) = defs
    rw [if_pos hlen]
  have hgo : (⟨defs.map Prod.fst, t, some defs, none⟩ : Questions).GetOrder
      = defs.map Prod.fst := by
    show (if 0 < (defs.map Prod.fst).length then defs.map Prod.fst else _)
      = defs.map Prod.fst
    rw [if_pos hmaplen]
  have hco : (⟨ord, t, some defs, none⟩ : Questions).GetOrder = ord := by
    have hop : 0 < ord.length := List.length_pos.2 hordne
    show (if 0 < ord.length then ord else _) = ord
    rw [if_pos hop]
  refine ⟨by rw [hlegacy]; exact hgl,
    by rw [hcanon]; exact hcl,
    by rw [hlegacy, hgo]; exact fun h => hne (List.map_eq_nil_iff.1 h),
    by rw [hcanon, hco]; exact hordne,
    fun k => by rw [hlegacy, hgo],
    fun k => by rw [hcanon, hco]; exact hord k⟩

/-- Witness for C8 at a one-question graph. -/
theorem c8_legacy_canonical_equiv_witness :
    (⟨[], "", none, some [("app", appQ)]⟩ : Questions).normalize.GetQuestions
      = [("app", appQ)] ∧
    (⟨["app"], "", some [("app", appQ)], none⟩ : Questions).normalize.GetQuestions
      = [("app", appQ)] ∧
    (⟨[], "", none, some [("app", appQ)]⟩ : Questions).normalize.GetOrder ≠ [] := by
  have h := c8_legacy_canonical_equiv [("app", appQ)] ["app"] ""
    (List.cons_ne_nil _ _) (fun k => Iff.rfl)
  exact ⟨h.1, h.2.1, h.2.2.1⟩

end YG

